import Mathlib

/-
Verification of the chunked concurrent dispatch engine of llmParallelRunner:
a shallow embedding of src/parallel_runner/runner.py (safe_main_main and
parallel_process_df) and src/llm_parallel_runner/runner.py
(parallel_process_dfs), with theorems about partitioning, fan-in, retry,
reconciliation and the convergence loop.
-/

namespace ParallelRunner

/-- Key values as they arrive from the caller: a pandas pmcid cell may hold
an integer or a string; astype(str) canonicalizes both to a string. -/
inductive KeyVal where
  | intKey (n : Int)
  | strKey (s : String)
deriving DecidableEq

/-- Model of pandas astype(str) applied to one pmcid cell. -/
def normKey : KeyVal → String
  | .intKey n => toString n
  | .strKey s => s

/-- One row of the input DataFrame: the identifying pmcid column and the
methods payload column (None models NaN). -/
structure Row where
  pmcid : KeyVal
  methods : Option String
deriving DecidableEq

/-- A result table returned by the collaborator main.main: an opaque list of
result rows (row contents are irrelevant to the runner, which only
concatenates them). -/
abbrev RDF := List Nat

/-- Size schedule of numpy array_split: for length n into k sections,
the first n % k sections have size n / k + 1 and the rest size n / k. -/
def splitSizes (n k : Nat) : List Nat :=
  (List.range k).map (fun i => if i < n % k then n / k + 1 else n / k)

/-- Cut a list into consecutive pieces of the given sizes. -/
def chunksOfSizes {α : Type} : List α → List Nat → List (List α)
  | _, [] => []
  | l, s :: ss => l.take s :: chunksOfSizes (l.drop s) ss

/-- Embedding of np.array_split(l, k) (row-wise split of a DataFrame). -/
def array_split {α : Type} (l : List α) (k : Nat) : List (List α) :=
  chunksOfSizes l (splitSizes l.length k)

theorem splitSizes_length (n k : Nat) : (splitSizes n k).length = k := by
  simp [splitSizes]

theorem chunksOfSizes_length {α : Type} (l : List α) (ss : List Nat) :
    (chunksOfSizes l ss).length = ss.length := by
  induction ss generalizing l with
  | nil => simp [chunksOfSizes]
  | cons s ss ih => simp [chunksOfSizes, ih]

theorem sum_map_const_of {α : Type} (l : List α) (f : α → Nat) (c : Nat)
    (h : ∀ x ∈ l, f x = c) : (l.map f).sum = l.length * c := by
  induction l with
  | nil => simp
  | cons a l ih =>
    have ha : f a = c := h a (by simp)
    have ihl : (l.map f).sum = l.length * c := ih (fun x hx => h x (by simp [hx]))
    simp [ha, ihl, Nat.succ_mul]
    ring

theorem splitSizes_sum (n k : Nat) (hk : 1 ≤ k) : (splitSizes n k).sum = n := by
  set q := n / k with hq
  set r := n % k with hr
  have hrk : r ≤ k := le_of_lt (Nat.mod_lt n hk)
  obtain ⟨d, hd⟩ : ∃ d, k = r + d := ⟨k - r, by omega⟩
  have hrange : List.range k = List.range r ++ (List.range d).map (r + ·) := by
    rw [hd, List.range_add]
  have h1 : ((List.range r).map (fun i => if i < r then q + 1 else q)).sum = r * (q + 1) := by
    have := sum_map_const_of (List.range r) (fun i => if i < r then q + 1 else q) (q + 1)
      (by intro x hx; simp only [List.mem_range] at hx; simp [hx])
    simpa using this
  have h2 : (((List.range d).map (r + ·)).map (fun i => if i < r then q + 1 else q)).sum
      = d * q := by
    have := sum_map_const_of ((List.range d).map (r + ·))
      (fun i => if i < r then q + 1 else q) q
      (by
        intro x hx
        simp only [List.mem_map, List.mem_range] at hx
        obtain ⟨j, _, hj⟩ := hx
        have hge : ¬ (x < r) := by omega
        simp [hge])
    simpa using this
  have hs : (splitSizes n k).sum = r * (q + 1) + d * q := by
    rw [splitSizes, hrange, List.map_append, List.sum_append, h1, h2]
  rw [hs]
  have hdm : k * q + r = n := by
    rw [hq, hr]
    exact Nat.div_add_mod n k
  calc r * (q + 1) + d * q = (r + d) * q + r := by ring
    _ = k * q + r := by rw [hd]
    _ = n := hdm

theorem chunksOfSizes_join {α : Type} (l : List α) (ss : List Nat) :
    (chunksOfSizes l ss).flatten = l.take ss.sum := by
  induction ss generalizing l with
  | nil => simp [chunksOfSizes]
  | cons s ss ih =>
    simp only [chunksOfSizes, List.flatten_cons, List.sum_cons, ih (l.drop s)]
    rw [List.take_add]

theorem chunksOfSizes_lengths {α : Type} (l : List α) (ss : List Nat)
    (h : ss.sum ≤ l.length) : (chunksOfSizes l ss).map List.length = ss := by
  induction ss generalizing l with
  | nil => simp [chunksOfSizes]
  | cons s ss ih =>
    have hs : s ≤ l.length := by
      have := List.sum_cons (a := s) (l := ss)
      omega
    have hrest : ss.sum ≤ (l.drop s).length := by
      simp only [List.length_drop]
      have := List.sum_cons (a := s) (l := ss)
      omega
    simp only [chunksOfSizes, List.map_cons, List.length_take]
    rw [ih (l.drop s) hrest]
    congr 1
    omega

theorem splitSizes_mem (n k x : Nat) (hx : x ∈ splitSizes n k) :
    x = n / k ∨ x = n / k + 1 := by
  simp only [splitSizes, List.mem_map, List.mem_range] at hx
  obtain ⟨i, _, hi⟩ := hx
  by_cases h : i < n % k
  · right; simp [h] at hi; omega
  · left; simp [h] at hi; omega

theorem array_split_length {α : Type} (l : List α) (k : Nat) :
    (array_split l k).length = k := by
  simp [array_split, chunksOfSizes_length, splitSizes_length]

theorem array_split_join {α : Type} (l : List α) (k : Nat) (hk : 1 ≤ k) :
    (array_split l k).flatten = l := by
  rw [array_split, chunksOfSizes_join, splitSizes_sum _ _ hk, List.take_length]

theorem array_split_lengths {α : Type} (l : List α) (k : Nat) (hk : 1 ≤ k) :
    (array_split l k).map List.length = splitSizes l.length k := by
  apply chunksOfSizes_lengths
  rw [splitSizes_sum _ _ hk]

theorem array_split_chunk_size {α : Type} (l : List α) (k : Nat) (hk : 1 ≤ k)
    (c : List α) (hc : c ∈ array_split l k) :
    c.length = l.length / k ∨ c.length = l.length / k + 1 := by
  have hmem : c.length ∈ splitSizes l.length k := by
    rw [← array_split_lengths l k hk]
    exact List.mem_map_of_mem List.length hc
  exact splitSizes_mem _ _ _ hmem

/-- Python substring containment (the `in` operator) on the character data of
two strings. -/
def containsSub (s pat : String) : Bool := decide (pat.data <:+: s.data)

/-- Python str.lower() applied to an error message, character by character. -/
def lowerMsg (s : String) : String := String.mk (s.data.map Char.toLower)

/-- Transient-error classification of safe_main_main: lower the message and
look for either fixed marker substring. -/
def isTransient (msg : String) : Bool :=
  containsSub (lowerMsg msg) "concurrent write"
    || containsSub (lowerMsg msg) "transaction conflict"

/-- Outcome of one resilient wrapper call, instrumented: the returned value
or raised error, the number of collaborator invocations made, and the
sequence of backoff sleeps performed (in seconds). -/
structure CallTrace where
  outcome : Except String RDF
  invocations : Nat
  sleeps : List Nat

/-- max_retries of safe_main_main. -/
def max_retries : Nat := 3

/-- Fixed backoff delay (seconds) of safe_main_main. -/
def delay : Nat := 1

/-- Message of the terminal exception raised when retries are exhausted. -/
def exhaustedMsg : String :=
  "Failed to process chunk after multiple retries due to concurrent write errors."

/-- The while loop of safe_main_main. The collaborator's behaviour is a
function from invocation index to outcome; fuel is max_retries minus the
attempt counter, k counts invocations made so far, sl the sleeps so far. -/
def safeLoop (behav : Nat → Except String RDF) : Nat → Nat → List Nat → CallTrace
  | 0, k, sl => ⟨.error exhaustedMsg, k, sl⟩
  | fuel + 1, k, sl =>
    match behav k with
    | .ok df => ⟨.ok df, k + 1, sl⟩
    | .error e =>
      if isTransient e then safeLoop behav fuel (k + 1) (sl ++ [delay])
      else ⟨.error e, k + 1, sl⟩

/-- Embedding of safe_main_main: run the retry loop with the full budget. -/
def safe_main_main (behav : Nat → Except String RDF) : CallTrace :=
  safeLoop behav max_retries 0 []

/-- Resolve one completed future the way the dispatch loop does: a
successful chunk contributes its table, a failed one an empty DataFrame. -/
def resolveOut (o : Except String RDF) : RDF :=
  match o with
  | .ok r => r
  | .error _ => []

/-- The value written into results[i] when chunk i's future completes:
its table on success, an empty DataFrame on failure. -/
def slotValue (outcomes : List (Except String RDF)) (i : Nat) : Option RDF :=
  some (resolveOut (outcomes.getD i (.ok [])))

/-- Fan-in of parallel_process_df: results = [None] * n_splits, then for
each future, in completion order, results[index] = resolved value. The
completion order is a list of chunk indices. -/
def fanInRound (outcomes : List (Except String RDF)) (order : List Nat) :
    List (Option RDF) :=
  order.foldl
    (fun results i => results.set i (slotValue outcomes i))
    (List.replicate outcomes.length none)

/-- One dispatch round over a list of chunks: submit every chunk to the
collaborator and fan the outcomes in by chunk index. -/
def dispatchRound (call : List Row → Except String RDF) (chunks : List (List Row))
    (order : List Nat) : List (Option RDF) :=
  fanInRound (chunks.map call) order

theorem foldl_set_length {α : Type} (v : Nat → α) (l : List Nat) (init : List α) :
    (l.foldl (fun acc i => acc.set i (v i)) init).length = init.length := by
  induction l generalizing init with
  | nil => simp
  | cons i l ih => simp [List.foldl_cons, ih]

theorem foldl_set_get? {α : Type} (v : Nat → α) (l : List Nat) (init : List α) (j : Nat) :
    (l.foldl (fun acc i => acc.set i (v i)) init).get? j =
      if j ∈ l ∧ j < init.length then some (v j) else init.get? j := by
  induction l generalizing init with
  | nil => simp
  | cons i l ih =>
    simp only [List.foldl_cons]
    rw [ih]
    have hlen : (init.set i (v i)).length = init.length := List.length_set init i (v i)
    by_cases hj : j < init.length
    · by_cases hjl : j ∈ l
      · rw [if_pos ⟨hjl, by omega⟩, if_pos ⟨List.mem_cons_of_mem i hjl, hj⟩]
      · rw [if_neg (by simp [hjl, hlen])]
        by_cases hji : j = i
        · subst hji
          rw [if_pos ⟨List.mem_cons_self j l, hj⟩]
          exact List.get?_set_eq_of_lt (v j) hj
        · rw [if_neg (by simp [hji, hjl])]
          exact List.get?_set_ne (v i) init (fun h => hji h.symm)
    · rw [if_neg (by omega), if_neg (by omega)]
      have hge : init.length ≤ i ∨ i < init.length := by omega
      by_cases hji : j = i
      · subst hji
        rcases Nat.lt_or_ge j init.length with h | h
        · omega
        · rw [List.set_eq_of_length_le h]
      · exact List.get?_set_ne (v i) init (fun h => hji h.symm)

theorem fanInRound_length (outcomes : List (Except String RDF)) (order : List Nat) :
    (fanInRound outcomes order).length = outcomes.length := by
  unfold fanInRound
  rw [foldl_set_length]
  simp

theorem fanInRound_get? (outcomes : List (Except String RDF)) (order : List Nat)
    (j : Nat) (hj : j < outcomes.length) (hcov : j ∈ order) :
    (fanInRound outcomes order).get? j = some (slotValue outcomes j) := by
  unfold fanInRound
  rw [foldl_set_get?]
  rw [if_pos ⟨hcov, by simpa using hj⟩]

/-- Normalize the pmcid column of a DataFrame in place, as the assignment
df['pmcid'] = df['pmcid'].astype(str) does: every key becomes its string
form, every other column is untouched. -/
def normalizeDF (df : List Row) : List Row :=
  df.map (fun r => { r with pmcid := .strKey (normKey r.pmcid) })

/-- Result of the convergence loop, instrumented with the per-round attempt
tables and the per-round recomputed residuals. -/
structure LoopOut where
  tables : List RDF
  residuals : List (List Row)
  finalRemaining : List Row
  rounds : Nat

/-- The attempt table of one dispatch round over a residual: split into
n_splits chunks, dispatch them, substitute empty tables for failures, and
concatenate the results in chunk-index order (pd.concat(results)). -/
def roundTable (call : List Row → Except String RDF) (nsp : Nat)
    (order : List Nat) (remaining : List Row) : RDF :=
  ((dispatchRound call (array_split remaining nsp) order).map
    (fun o => o.getD [])).flatten

/-- Residual recomputation after a round: the rows of the (normalized)
original input whose pmcid, in string form, is not among the store's
distinct persisted ids, also taken in string form. -/
def computeRemaining (df0 : List Row) (storeKeys : List KeyVal) : List Row :=
  df0.filter (fun r => !((storeKeys.map normKey).contains (normKey r.pmcid)))

/-- The for-attempt loop of parallel_process_df. call t c is the outcome of
the collaborator on chunk c during round t; store t is the store's distinct
pmcid listing queried after round t; orders t is round t's completion
order; fuel is the number of attempts still allowed. -/
def runFrom (call : Nat → List Row → Except String RDF)
    (store : Nat → List KeyVal) (orders : Nat → List Nat)
    (df0 : List Row) (nsp : Nat) : Nat → Nat → List Row → LoopOut
  | 0, _, rem => ⟨[], [], rem, 0⟩
  | fuel + 1, t, rem =>
    if rem.isEmpty then ⟨[], [], rem, 0⟩
    else
      let attempt := roundTable (call t) nsp (orders t) rem
      let rem' := computeRemaining df0 (store t)
      let rest := runFrom call store orders df0 nsp fuel (t + 1) rem'
      ⟨attempt :: rest.tables, rem' :: rest.residuals, rest.finalRemaining,
        rest.rounds + 1⟩

/-- Observable result of one parallel_process_df call: the returned table or
the raised error, the post-call state of the caller's DataFrame (the
function mutates its pmcid column), and loop instrumentation. -/
structure PPDOut where
  outcome : Except String RDF
  dfAfter : List Row
  tables : List RDF
  residuals : List (List Row)
  rounds : Nat

/-- Message of the ValueError raised when the reconciliation kwargs are
missing. -/
def valueErrorMsg : String := "Both 'spark' and 'table_name' must be provided in kwargs."

/-- Embedding of parallel_process_df. The kwargs spark (store query
interface) and table_name are modelled as Option arguments; call and orders
model the collaborator and the thread schedule. The pmcid column is
normalized before the kwargs are validated, exactly as in the source. -/
def parallel_process_df (call : Nat → List Row → Except String RDF)
    (orders : Nat → List Nat) (df : List Row) (n_splits : Option Nat)
    (max_workers max_main_retries : Nat)
    (spark : Option (Nat → List KeyVal)) (table_name : Option String) : PPDOut :=
  let dfN := normalizeDF df
  match spark, table_name with
  | some store, some _tn =>
    let nsp := n_splits.getD max_workers
    let lo := runFrom call store orders dfN nsp max_main_retries 0 dfN
    ⟨.ok lo.tables.flatten, dfN, lo.tables, lo.residuals, lo.rounds⟩
  | _, _ => ⟨.error valueErrorMsg, dfN, [], [], 0⟩

/-- Python dict assignment results[k] = v on an insertion-ordered
association list. -/
def dictSet (m : List (String × Option RDF)) (k : String) (v : Option RDF) :
    List (String × Option RDF) :=
  if m.any (fun p => p.1 == k) then
    m.map (fun p => if p.1 == k then (k, v) else p)
  else m ++ [(k, v)]

/-- Resolve one future of parallel_process_dfs: its table on success, None
when the call raised. -/
def resOpt (o : Except String RDF) : Option RDF :=
  match o with
  | .ok r => some r
  | .error _ => none

/-- Embedding of parallel_process_dfs: completed lists the input
key/DataFrame pairs in future completion order; each completion stores its
resolved result under its key in the results dict. -/
def parallel_process_dfs (call : String → List Row → Except String RDF)
    (completed : List (String × List Row)) : List (String × Option RDF) :=
  completed.foldl (fun m kv => dictSet m kv.1 (resOpt (call kv.1 kv.2))) []

theorem getD_map {α β : Type} (l : List α) (f : α → β) (j : Nat) (d : β) (d' : α)
    (h : j < l.length) : (l.map f).getD j d = f (l.getD j d') := by
  rw [List.getD_eq_getElem _ _ (by simpa using h), List.getD_eq_getElem _ _ h]
  simp

theorem safeLoop_ok (behav : Nat → Except String RDF) (fuel k : Nat) (sl : List Nat)
    (df : RDF) (h : behav k = .ok df) :
    safeLoop behav (fuel + 1) k sl = ⟨.ok df, k + 1, sl⟩ := by
  simp [safeLoop, h]

theorem safeLoop_transient (behav : Nat → Except String RDF) (fuel k : Nat)
    (sl : List Nat) (e : String) (h : behav k = .error e) (ht : isTransient e = true) :
    safeLoop behav (fuel + 1) k sl = safeLoop behav fuel (k + 1) (sl ++ [delay]) := by
  simp [safeLoop, h, ht]

theorem safeLoop_fatal (behav : Nat → Except String RDF) (fuel k : Nat)
    (sl : List Nat) (e : String) (h : behav k = .error e) (ht : isTransient e = false) :
    safeLoop behav (fuel + 1) k sl = ⟨.error e, k + 1, sl⟩ := by
  simp [safeLoop, h, ht]

theorem safeLoop_invocations_le (behav : Nat → Except String RDF) (fuel : Nat) :
    ∀ k sl, (safeLoop behav fuel k sl).invocations ≤ k + fuel := by
  induction fuel with
  | zero => intro k sl; simp [safeLoop]
  | succ fuel ih =>
    intro k sl
    cases hb : behav k with
    | ok df => rw [safeLoop_ok behav fuel k sl df hb]; simp
    | error e =>
      cases ht : isTransient e with
      | true =>
        rw [safeLoop_transient behav fuel k sl e hb ht]
        have := ih (k + 1) (sl ++ [delay])
        omega
      | false => rw [safeLoop_fatal behav fuel k sl e hb ht]; simp

/-- C1: for every record set and every target chunk count K with K ≥ 1, the
partitioner produces exactly K ordered partitions whose sizes differ
pairwise by at most one and whose concatenation in partition order
reconstructs the original record order, so every record is covered exactly
once; in particular 10 records with splitCount 4 give sizes 3, 3, 2, 2. -/
theorem array_split_partition {α : Type} (l : List α) (k : Nat) (hk : 1 ≤ k) :
    (array_split l k).length = k ∧
    (array_split l k).flatten = l ∧
    (∀ c ∈ array_split l k, ∀ d ∈ array_split l k, c.length ≤ d.length + 1) ∧
    (array_split (List.range 10) 4).map List.length = [3, 3, 2, 2] := by
  refine ⟨array_split_length l k, array_split_join l k hk, ?_, by decide⟩
  intro c hc d hd
  rcases array_split_chunk_size l k hk c hc with h1 | h1 <;>
    rcases array_split_chunk_size l k hk d hd with h2 | h2 <;> omega

theorem array_split_partition_witness :
    1 ≤ 4 ∧
    ((array_split (List.range 10) 4).length = 4 ∧
     (array_split (List.range 10) 4).flatten = List.range 10 ∧
     (∀ c ∈ array_split (List.range 10) 4, ∀ d ∈ array_split (List.range 10) 4,
        c.length ≤ d.length + 1) ∧
     (array_split (List.range 10) 4).map List.length = [3, 3, 2, 2]) :=
  ⟨by decide, array_split_partition (List.range 10) 4 (by decide)⟩

/-- C2: one dispatch round's results array has exactly one entry per
submitted chunk, at that chunk's partition index regardless of the
completion order; a chunk whose call raises gets the empty table in its
slot, every other chunk's slot holds its own result, and all slots are
resolved. -/
theorem dispatchRound_isolation (call : List Row → Except String RDF)
    (chunks : List (List Row)) (order : List Nat)
    (hord : List.Perm order (List.range chunks.length)) :
    (dispatchRound call chunks order).length = chunks.length ∧
    (∀ j, j < chunks.length →
      (dispatchRound call chunks order).get? j
        = some (some (resolveOut (call (chunks.getD j []))))) ∧
    (∀ j e, j < chunks.length → call (chunks.getD j []) = .error e →
      (dispatchRound call chunks order).get? j = some (some [])) ∧
    (∀ j r, j < chunks.length → call (chunks.getD j []) = .ok r →
      (dispatchRound call chunks order).get? j = some (some r)) ∧
    (∀ o ∈ dispatchRound call chunks order, o ≠ none) := by
  have hlen : (dispatchRound call chunks order).length = chunks.length := by
    rw [dispatchRound, fanInRound_length, List.length_map]
  have hget : ∀ j, j < chunks.length →
      (dispatchRound call chunks order).get? j
        = some (some (resolveOut (call (chunks.getD j [])))) := by
    intro j hj
    have hcov : j ∈ order := by
      rw [hord.mem_iff, List.mem_range]
      exact hj
    rw [dispatchRound, fanInRound_get? (chunks.map call) order j (by simpa using hj) hcov,
      slotValue, getD_map chunks call j (Except.ok []) [] hj]
  refine ⟨hlen, hget, ?_, ?_, ?_⟩
  · intro j e hj he
    rw [hget j hj, he]
    rfl
  · intro j r hj hr
    rw [hget j hj, hr]
    rfl
  · intro o ho
    obtain ⟨n, hn⟩ := List.mem_iff_get?.mp ho
    have hnlt : n < chunks.length := by
      by_contra hcon
      rw [List.get?_eq_none.mpr (by omega)] at hn
      exact Option.noConfusion hn
    rw [hget n hnlt] at hn
    intro hno
    rw [hno] at hn
    exact Option.noConfusion (Option.some.inj hn)

/-- A pair of concrete chunks used to witness the dispatcher theorem. -/
def chunkA : List Row := [⟨.strKey "a", some "ma"⟩]

/-- Second concrete chunk for the dispatcher witness. -/
def chunkB : List Row := [⟨.strKey "b", some "mb"⟩]

/-- A collaborator that succeeds on the first chunk and raises on the
second, used to witness the dispatcher theorem. -/
def callW : List Row → Except String RDF :=
  fun c => if c = chunkA then .ok [1] else .error "boom"

theorem dispatchRound_isolation_witness :
    (dispatchRound callW [chunkA, chunkB] [1, 0]).length = 2 ∧
    (∀ j, j < 2 →
      (dispatchRound callW [chunkA, chunkB] [1, 0]).get? j
        = some (some (resolveOut (callW ([chunkA, chunkB].getD j []))))) ∧
    (∀ j e, j < 2 → callW ([chunkA, chunkB].getD j []) = .error e →
      (dispatchRound callW [chunkA, chunkB] [1, 0]).get? j = some (some [])) ∧
    (∀ j r, j < 2 → callW ([chunkA, chunkB].getD j []) = .ok r →
      (dispatchRound callW [chunkA, chunkB] [1, 0]).get? j = some (some r)) ∧
    (∀ o ∈ dispatchRound callW [chunkA, chunkB] [1, 0], o ≠ none) :=
  dispatchRound_isolation callW [chunkA, chunkB] [1, 0] (by decide)

/-- C3: the resilient wrapper invokes the collaborator at most max_retries
times per call; a collaborator that raises a transient error on all but the
last allowed attempt succeeds on the final attempt, with one fixed backoff
sleep per transient failure; one that raises a transient error on every
attempt makes exactly max_retries invocations, sleeps the same fixed delay
each time, and then fails with a terminal error. -/
theorem safe_main_main_retry_bound (behav : Nat → Except String RDF) :
    (safe_main_main behav).invocations ≤ max_retries ∧
    (∀ df : RDF,
      (∀ k, k < max_retries - 1 → ∃ e, behav k = .error e ∧ isTransient e = true) →
      behav (max_retries - 1) = .ok df →
      safe_main_main behav
        = ⟨.ok df, max_retries, List.replicate (max_retries - 1) delay⟩) ∧
    ((∀ k, k < max_retries → ∃ e, behav k = .error e ∧ isTransient e = true) →
      (safe_main_main behav).invocations = max_retries ∧
      (safe_main_main behav).sleeps = List.replicate max_retries delay ∧
      (safe_main_main behav).outcome = .error exhaustedMsg) := by
  refine ⟨?_, ?_, ?_⟩
  · have h := safeLoop_invocations_le behav max_retries 0 []
    simpa [safe_main_main] using h
  · intro df hH hlast
    obtain ⟨e0, he0, ht0⟩ := hH 0 (by decide)
    obtain ⟨e1, he1, ht1⟩ := hH 1 (by decide)
    have h2 : behav 2 = .ok df := hlast
    show safeLoop behav 3 0 [] = _
    rw [show (3 : Nat) = 2 + 1 from rfl, safeLoop_transient behav 2 0 [] e0 he0 ht0]
    rw [show (2 : Nat) = 1 + 1 from rfl,
      safeLoop_transient behav 1 1 ([] ++ [delay]) e1 he1 ht1]
    rw [show (1 : Nat) = 0 + 1 from rfl,
      safeLoop_ok behav 0 2 (([] ++ [delay]) ++ [delay]) df h2]
    rfl
  · intro hH
    obtain ⟨e0, he0, ht0⟩ := hH 0 (by decide)
    obtain ⟨e1, he1, ht1⟩ := hH 1 (by decide)
    obtain ⟨e2, he2, ht2⟩ := hH 2 (by decide)
    have hrun : safe_main_main behav = ⟨.error exhaustedMsg, 3, [delay, delay, delay]⟩ := by
      show safeLoop behav 3 0 [] = _
      rw [show (3 : Nat) = 2 + 1 from rfl, safeLoop_transient behav 2 0 [] e0 he0 ht0]
      rw [show (2 : Nat) = 1 + 1 from rfl,
        safeLoop_transient behav 1 1 ([] ++ [delay]) e1 he1 ht1]
      rw [show (1 : Nat) = 0 + 1 from rfl,
        safeLoop_transient behav 0 2 (([] ++ [delay]) ++ [delay]) e2 he2 ht2]
      rfl
    rw [hrun]
    exact ⟨rfl, rfl, rfl⟩

/-- Collaborator behaviour for the retry-bound witness: a mixed-case
transient marker error on the first two invocations, then success. -/
def behavTransient : Nat → Except String RDF :=
  fun k => if k < 2 then .error "Delta ConCurrent WRITE conflict detected" else .ok [7]

theorem safe_main_main_retry_bound_witness :
    safe_main_main behavTransient
      = ⟨.ok [7], max_retries, List.replicate (max_retries - 1) delay⟩ :=
  (safe_main_main_retry_bound behavTransient).2.1 [7]
    (by
      intro k hk
      refine ⟨"Delta ConCurrent WRITE conflict detected", ?_, by decide⟩
      have hk2 : k < 2 := by simpa [max_retries] using hk
      simp [behavTransient, hk2])
    rfl

/-- C4: the wrapper classifies an error as transient by a case-insensitive
substring match of its message against the fixed markers "concurrent write"
and "transaction conflict"; an error not matching that set is re-raised
immediately, so the chunk fails after exactly one collaborator invocation
with no retry and no sleep, while a matching error is retried. -/
theorem transient_classification (behav : Nat → Except String RDF) (e : String)
    (df : RDF) (h0 : behav 0 = .error e) (h1 : behav 1 = .ok df) :
    isTransient e = (containsSub (lowerMsg e) "concurrent write"
        || containsSub (lowerMsg e) "transaction conflict") ∧
    (isTransient e = false → safe_main_main behav = ⟨.error e, 1, []⟩) ∧
    (isTransient e = true → safe_main_main behav = ⟨.ok df, 2, [delay]⟩) := by
  refine ⟨rfl, ?_, ?_⟩
  · intro ht
    show safeLoop behav 3 0 [] = _
    rw [show (3 : Nat) = 2 + 1 from rfl, safeLoop_fatal behav 2 0 [] e h0 ht]
  · intro ht
    show safeLoop behav 3 0 [] = _
    rw [show (3 : Nat) = 2 + 1 from rfl, safeLoop_transient behav 2 0 [] e h0 ht]
    rw [show (2 : Nat) = 1 + 1 from rfl, safeLoop_ok behav 1 1 ([] ++ [delay]) df h1]
    rfl

/-- Collaborator behaviour for the fast-fail witness: one non-transient
error, then success it never reaches. -/
def behavFatal : Nat → Except String RDF :=
  fun k => if k = 0 then .error "ZeroDivisionError: division by zero" else .ok [3]

theorem transient_classification_witness :
    safe_main_main behavFatal = ⟨.error "ZeroDivisionError: division by zero", 1, []⟩ :=
  (transient_classification behavFatal "ZeroDivisionError: division by zero" [3]
    rfl rfl).2.1 (by decide)

theorem runFrom_zero (call : Nat → List Row → Except String RDF)
    (store : Nat → List KeyVal) (orders : Nat → List Nat) (df0 : List Row)
    (nsp t : Nat) (rem : List Row) :
    runFrom call store orders df0 nsp 0 t rem = ⟨[], [], rem, 0⟩ := rfl

theorem runFrom_succ_empty (call : Nat → List Row → Except String RDF)
    (store : Nat → List KeyVal) (orders : Nat → List Nat) (df0 : List Row)
    (nsp fuel t : Nat) (rem : List Row) (h : rem.isEmpty = true) :
    runFrom call store orders df0 nsp (fuel + 1) t rem = ⟨[], [], rem, 0⟩ := by
  rw [runFrom, if_pos h]

theorem runFrom_succ_nonempty (call : Nat → List Row → Except String RDF)
    (store : Nat → List KeyVal) (orders : Nat → List Nat) (df0 : List Row)
    (nsp fuel t : Nat) (rem : List Row) (h : rem.isEmpty = false) :
    runFrom call store orders df0 nsp (fuel + 1) t rem =
      ⟨roundTable (call t) nsp (orders t) rem ::
          (runFrom call store orders df0 nsp fuel (t + 1)
            (computeRemaining df0 (store t))).tables,
        computeRemaining df0 (store t) ::
          (runFrom call store orders df0 nsp fuel (t + 1)
            (computeRemaining df0 (store t))).residuals,
        (runFrom call store orders df0 nsp fuel (t + 1)
          (computeRemaining df0 (store t))).finalRemaining,
        (runFrom call store orders df0 nsp fuel (t + 1)
          (computeRemaining df0 (store t))).rounds + 1⟩ := by
  rw [runFrom, if_neg (by simp [h])]

theorem runFrom_empty_rem (call : Nat → List Row → Except String RDF)
    (store : Nat → List KeyVal) (orders : Nat → List Nat) (df0 : List Row)
    (nsp fuel t : Nat) :
    runFrom call store orders df0 nsp fuel t [] = ⟨[], [], [], 0⟩ := by
  cases fuel with
  | zero => rfl
  | succ fuel => exact runFrom_succ_empty call store orders df0 nsp fuel t [] rfl

theorem runFrom_rounds_le (call : Nat → List Row → Except String RDF)
    (store : Nat → List KeyVal) (orders : Nat → List Nat) (df0 : List Row)
    (nsp : Nat) : ∀ fuel t rem,
    (runFrom call store orders df0 nsp fuel t rem).rounds ≤ fuel := by
  intro fuel
  induction fuel with
  | zero => intro t rem; simp [runFrom_zero]
  | succ fuel ih =>
    intro t rem
    cases hrem : rem.isEmpty with
    | true => rw [runFrom_succ_empty call store orders df0 nsp fuel t rem hrem]; simp
    | false =>
      rw [runFrom_succ_nonempty call store orders df0 nsp fuel t rem hrem]
      have := ih (t + 1) (computeRemaining df0 (store t))
      simpa using this

theorem runFrom_residuals_get? (call : Nat → List Row → Except String RDF)
    (store : Nat → List KeyVal) (orders : Nat → List Nat) (df0 : List Row)
    (nsp : Nat) : ∀ fuel t rem i,
    i < (runFrom call store orders df0 nsp fuel t rem).residuals.length →
    (runFrom call store orders df0 nsp fuel t rem).residuals.get? i
      = some (computeRemaining df0 (store (t + i))) := by
  intro fuel
  induction fuel with
  | zero => intro t rem i h; simp [runFrom_zero] at h
  | succ fuel ih =>
    intro t rem i h
    cases hrem : rem.isEmpty with
    | true =>
      rw [runFrom_succ_empty call store orders df0 nsp fuel t rem hrem] at h
      simp at h
    | false =>
      rw [runFrom_succ_nonempty call store orders df0 nsp fuel t rem hrem] at h ⊢
      dsimp only at h ⊢
      cases i with
      | zero => simp
      | succ i =>
        rw [List.get?_cons_succ]
        have hlen : i < (runFrom call store orders df0 nsp fuel (t + 1)
            (computeRemaining df0 (store t))).residuals.length := by
          rw [List.length_cons] at h
          omega
        rw [ih (t + 1) (computeRemaining df0 (store t)) i hlen]
        have harith : t + 1 + i = t + (i + 1) := by omega
        rw [harith]

theorem computeRemaining_nil (df0 : List Row) : computeRemaining df0 [] = df0 := by
  simp [computeRemaining]

theorem computeRemaining_covered (df0 : List Row) (storeKeys : List KeyVal)
    (hcov : ∀ r ∈ df0, (storeKeys.map normKey).contains (normKey r.pmcid) = true) :
    computeRemaining df0 storeKeys = [] := by
  apply List.filter_eq_nil_iff.mpr
  intro r hr
  rw [hcov r hr]
  simp

theorem runFrom_store_never (call : Nat → List Row → Except String RDF)
    (store : Nat → List KeyVal) (orders : Nat → List Nat) (df0 : List Row)
    (nsp : Nat) (hstore : ∀ t, store t = []) (hdf : df0 ≠ []) : ∀ fuel t,
    (runFrom call store orders df0 nsp fuel t df0).rounds = fuel ∧
    (runFrom call store orders df0 nsp fuel t df0).tables.length = fuel := by
  intro fuel
  induction fuel with
  | zero => intro t; simp [runFrom_zero]
  | succ fuel ih =>
    intro t
    have hne : df0.isEmpty = false := List.isEmpty_eq_false.mpr hdf
    rw [runFrom_succ_nonempty call store orders df0 nsp fuel t df0 hne]
    have hrem : computeRemaining df0 (store t) = df0 := by
      rw [hstore t, computeRemaining_nil]
    rw [hrem]
    have := ih (t + 1)
    simp [this.1, this.2]

theorem normalizeDF_idem (df : List Row) :
    normalizeDF (normalizeDF df) = normalizeDF df := by
  induction df with
  | nil => rfl
  | cons r df ih =>
    simp only [normalizeDF, List.map_cons, List.map_map] at ih ⊢
    exact congrArg _ (by simpa [normalizeDF] using ih)

theorem normalizeDF_ne_nil (df : List Row) (h : df ≠ []) : normalizeDF df ≠ [] := by
  cases df with
  | nil => exact absurd rfl h
  | cons r df => simp [normalizeDF]

theorem computeRemaining_store_norm (df0 : List Row) (storeKeys : List KeyVal) :
    computeRemaining df0 (storeKeys.map (fun kk => KeyVal.strKey (normKey kk)))
      = computeRemaining df0 storeKeys := by
  unfold computeRemaining
  rw [List.map_map]
  rfl

theorem runFrom_store_norm (call : Nat → List Row → Except String RDF)
    (store : Nat → List KeyVal) (orders : Nat → List Nat) (df0 : List Row)
    (nsp : Nat) : ∀ fuel t rem,
    runFrom call (fun u => (store u).map (fun kk => KeyVal.strKey (normKey kk)))
        orders df0 nsp fuel t rem
      = runFrom call store orders df0 nsp fuel t rem := by
  intro fuel
  induction fuel with
  | zero => intro t rem; rfl
  | succ fuel ih =>
    intro t rem
    cases hrem : rem.isEmpty with
    | true =>
      rw [runFrom_succ_empty _ _ orders df0 nsp fuel t rem hrem,
        runFrom_succ_empty call store orders df0 nsp fuel t rem hrem]
    | false =>
      rw [runFrom_succ_nonempty _ _ orders df0 nsp fuel t rem hrem,
        runFrom_succ_nonempty call store orders df0 nsp fuel t rem hrem,
        computeRemaining_store_norm, ih]

theorem parallel_process_df_some (call : Nat → List Row → Except String RDF)
    (orders : Nat → List Nat) (df : List Row) (n_splits : Option Nat)
    (mw maxR : Nat) (store : Nat → List KeyVal) (tn : String) :
    parallel_process_df call orders df n_splits mw maxR (some store) (some tn)
      = ⟨.ok (runFrom call store orders (normalizeDF df) (n_splits.getD mw) maxR 0
            (normalizeDF df)).tables.flatten,
         normalizeDF df,
         (runFrom call store orders (normalizeDF df) (n_splits.getD mw) maxR 0
            (normalizeDF df)).tables,
         (runFrom call store orders (normalizeDF df) (n_splits.getD mw) maxR 0
            (normalizeDF df)).residuals,
         (runFrom call store orders (normalizeDF df) (n_splits.getD mw) maxR 0
            (normalizeDF df)).rounds⟩ := rfl

/-- C5: after every executed round the residual is recomputed as exactly the
rows of the normalized original input whose key, in canonical string form,
is absent from the store listing of that round (never as a filter of the
previous round's residual), and key normalization is idempotent: inputs
whose keys are pre-normalized, and stores returning already-stringified
keys, give the identical execution. -/
theorem residual_recomputation (call : Nat → List Row → Except String RDF)
    (store : Nat → List KeyVal) (orders : Nat → List Nat) (df : List Row)
    (n_splits : Option Nat) (mw maxR : Nat) (tn : String) :
    (∀ i, i < (parallel_process_df call orders df n_splits mw maxR
        (some store) (some tn)).residuals.length →
      (parallel_process_df call orders df n_splits mw maxR
          (some store) (some tn)).residuals.get? i
        = some ((normalizeDF df).filter
            (fun r => !(((store i).map normKey).contains (normKey r.pmcid))))) ∧
    parallel_process_df call orders (normalizeDF df) n_splits mw maxR
        (some store) (some tn)
      = parallel_process_df call orders df n_splits mw maxR (some store) (some tn) ∧
    parallel_process_df call orders df n_splits mw maxR
        (some (fun t => (store t).map (fun kk => KeyVal.strKey (normKey kk))))
        (some tn)
      = parallel_process_df call orders df n_splits mw maxR (some store) (some tn) := by
  refine ⟨?_, ?_, ?_⟩
  · intro i hi
    rw [parallel_process_df_some] at hi ⊢
    have h := runFrom_residuals_get? call store orders (normalizeDF df)
      (n_splits.getD mw) maxR 0 (normalizeDF df) i (by simpa using hi)
    simpa [computeRemaining] using h
  · rw [parallel_process_df_some, parallel_process_df_some, normalizeDF_idem]
  · rw [parallel_process_df_some, parallel_process_df_some, runFrom_store_norm]

/-- A collaborator that always returns an empty table, for closed
evaluations of the controller. -/
def callTriv : Nat → List Row → Except String RDF := fun _ _ => .ok []

/-- A degenerate completion order for closed evaluations. -/
def ordersTriv : Nat → List Nat := fun _ => []

/-- A store whose round-0 listing is the single integer key 7, used to
witness the reconciliation theorem together with an integer-keyed input. -/
def storeW : Nat → List KeyVal := fun _ => [.intKey 7]

/-- Integer-keyed single-row input for the reconciliation witness. -/
def dfW : List Row := [⟨.intKey 7, some "text"⟩]

theorem residual_recomputation_witness :
    (∀ i, i < (parallel_process_df callTriv ordersTriv dfW none 4 3
        (some storeW) (some "tbl")).residuals.length →
      (parallel_process_df callTriv ordersTriv dfW none 4 3
          (some storeW) (some "tbl")).residuals.get? i
        = some ((normalizeDF dfW).filter
            (fun r => !(((storeW i).map normKey).contains (normKey r.pmcid))))) ∧
    parallel_process_df callTriv ordersTriv (normalizeDF dfW) none 4 3
        (some storeW) (some "tbl")
      = parallel_process_df callTriv ordersTriv dfW none 4 3
          (some storeW) (some "tbl") ∧
    parallel_process_df callTriv ordersTriv dfW none 4 3
        (some (fun t => (storeW t).map (fun kk => KeyVal.strKey (normKey kk))))
        (some "tbl")
      = parallel_process_df callTriv ordersTriv dfW none 4 3
          (some storeW) (some "tbl") :=
  residual_recomputation callTriv storeW ordersTriv dfW none 4 3 "tbl"

/-- C6: the convergence controller executes at most max_main_retries rounds
and stops as soon as the residual is empty: a nonempty input fully covered
by the store after round one gives exactly one round, and a store that
never reports any persisted key gives exactly max_main_retries rounds and
the cumulative concatenated output, returned without raising. -/
theorem convergence_termination (call : Nat → List Row → Except String RDF)
    (store : Nat → List KeyVal) (orders : Nat → List Nat) (df : List Row)
    (n_splits : Option Nat) (mw maxR : Nat) (tn : String) :
    (parallel_process_df call orders df n_splits mw maxR
      (some store) (some tn)).rounds ≤ maxR ∧
    (df ≠ [] → 1 ≤ maxR →
      (∀ r ∈ df, ((store 0).map normKey).contains (normKey r.pmcid) = true) →
      (parallel_process_df call orders df n_splits mw maxR
        (some store) (some tn)).rounds = 1) ∧
    ((∀ t, store t = []) → df ≠ [] →
      (parallel_process_df call orders df n_splits mw maxR
          (some store) (some tn)).rounds = maxR ∧
      (parallel_process_df call orders df n_splits mw maxR
          (some store) (some tn)).tables.length = maxR ∧
      (parallel_process_df call orders df n_splits mw maxR
          (some store) (some tn)).outcome
        = .ok (parallel_process_df call orders df n_splits mw maxR
            (some store) (some tn)).tables.flatten) := by
  refine ⟨?_, ?_, ?_⟩
  · rw [parallel_process_df_some]
    exact runFrom_rounds_le call store orders (normalizeDF df) (n_splits.getD mw) maxR 0
      (normalizeDF df)
  · intro hdf hmaxR hcov
    rw [parallel_process_df_some]
    obtain ⟨f, hf⟩ : ∃ f, maxR = f + 1 := ⟨maxR - 1, by omega⟩
    subst hf
    have hne : (normalizeDF df).isEmpty = false :=
      List.isEmpty_eq_false.mpr (normalizeDF_ne_nil df hdf)
    rw [runFrom_succ_nonempty call store orders (normalizeDF df) (n_splits.getD mw)
      f 0 (normalizeDF df) hne]
    have hcovN : ∀ r ∈ normalizeDF df,
        ((store 0).map normKey).contains (normKey r.pmcid) = true := by
      intro r hr
      simp only [normalizeDF, List.mem_map] at hr
      obtain ⟨r0, hr0, hr0eq⟩ := hr
      subst hr0eq
      exact hcov r0 hr0
    rw [computeRemaining_covered (normalizeDF df) (store 0) hcovN,
      runFrom_empty_rem]
  · intro hstore hdf
    rw [parallel_process_df_some]
    have h := runFrom_store_never call store orders (normalizeDF df)
      (n_splits.getD mw) hstore (normalizeDF_ne_nil df hdf) maxR 0
    exact ⟨h.1, h.2, rfl⟩

/-- A store that never reports any persisted key, for the budget-exhaustion
witness. -/
def storeEmpty : Nat → List KeyVal := fun _ => []

theorem convergence_termination_witness :
    (parallel_process_df callTriv ordersTriv dfW none 4 3
      (some storeEmpty) (some "tbl")).rounds ≤ 3 ∧
    (dfW ≠ [] → 1 ≤ 3 →
      (∀ r ∈ dfW, ((storeEmpty 0).map normKey).contains (normKey r.pmcid) = true) →
      (parallel_process_df callTriv ordersTriv dfW none 4 3
        (some storeEmpty) (some "tbl")).rounds = 1) ∧
    ((∀ t, storeEmpty t = []) → dfW ≠ [] →
      (parallel_process_df callTriv ordersTriv dfW none 4 3
          (some storeEmpty) (some "tbl")).rounds = 3 ∧
      (parallel_process_df callTriv ordersTriv dfW none 4 3
          (some storeEmpty) (some "tbl")).tables.length = 3 ∧
      (parallel_process_df callTriv ordersTriv dfW none 4 3
          (some storeEmpty) (some "tbl")).outcome
        = .ok (parallel_process_df callTriv ordersTriv dfW none 4 3
            (some storeEmpty) (some "tbl")).tables.flatten) :=
  convergence_termination callTriv storeEmpty ordersTriv dfW none 4 3 "tbl"

theorem parallel_process_df_missing (call : Nat → List Row → Except String RDF)
    (orders : Nat → List Nat) (df : List Row) (nsp : Option Nat) (mw maxR : Nat)
    (spark : Option (Nat → List KeyVal)) (tn : Option String)
    (h : spark = none ∨ tn = none) :
    parallel_process_df call orders df nsp mw maxR spark tn
      = ⟨.error valueErrorMsg, normalizeDF df, [], [], 0⟩ := by
  rcases h with h | h
  · subst h; cases tn <;> rfl
  · subst h; cases spark <;> rfl

/-- C7 counterexample: with the reconciliation parameters absent the entry
point does not complete a plain chunked dispatch and return a result
table; it raises the ValueError demanding spark and table_name. -/
theorem ppd_missing_kwargs_counterexample :
    (parallel_process_df callTriv ordersTriv dfW none 4 3 none none).outcome
      = .error valueErrorMsg ∧
    ∀ t : RDF,
      (parallel_process_df callTriv ordersTriv dfW none 4 3 none none).outcome
        ≠ .ok t := by
  refine ⟨rfl, ?_⟩
  intro t h
  rw [parallel_process_df_missing callTriv ordersTriv dfW none 4 3 none none
    (Or.inl rfl)] at h
  exact Except.noConfusion h

/-- C7 amended: the reconciliation parameters are mandatory, not optional:
when the store handle and target-table name are both supplied, the entry
point runs the bounded convergence dispatch and returns the concatenated
result table; when either is missing it raises a ValueError instead of
performing a plain dispatch. -/
theorem ppd_kwargs_required (call : Nat → List Row → Except String RDF)
    (orders : Nat → List Nat) (df : List Row) (nsp : Option Nat) (mw maxR : Nat)
    (spark : Option (Nat → List KeyVal)) (tn : Option String) :
    (∀ store t, spark = some store → tn = some t →
      (parallel_process_df call orders df nsp mw maxR spark tn).outcome
        = .ok (parallel_process_df call orders df nsp mw maxR spark tn).tables.flatten ∧
      (parallel_process_df call orders df nsp mw maxR spark tn).rounds ≤ maxR) ∧
    (spark = none ∨ tn = none →
      (parallel_process_df call orders df nsp mw maxR spark tn).outcome
        = .error valueErrorMsg) := by
  constructor
  · intro store t hs ht
    subst hs
    subst ht
    rw [parallel_process_df_some]
    exact ⟨rfl, runFrom_rounds_le call store orders (normalizeDF df)
      (nsp.getD mw) maxR 0 (normalizeDF df)⟩
  · intro h
    rw [parallel_process_df_missing call orders df nsp mw maxR spark tn h]

theorem ppd_kwargs_required_witness :
    (parallel_process_df callTriv ordersTriv dfW none 4 3
        (some storeW) (some "tbl")).outcome
      = .ok (parallel_process_df callTriv ordersTriv dfW none 4 3
          (some storeW) (some "tbl")).tables.flatten ∧
    (parallel_process_df callTriv ordersTriv dfW none 4 3
        (some storeW) (some "tbl")).rounds ≤ 3 :=
  (ppd_kwargs_required callTriv ordersTriv dfW none 4 3
    (some storeW) (some "tbl")).1 storeW "tbl" rfl rfl

theorem ppd_dfAfter (call : Nat → List Row → Except String RDF)
    (orders : Nat → List Nat) (df : List Row) (nsp : Option Nat) (mw maxR : Nat)
    (spark : Option (Nat → List KeyVal)) (tn : Option String) :
    (parallel_process_df call orders df nsp mw maxR spark tn).dfAfter
      = normalizeDF df := by
  cases spark <;> cases tn <;> rfl

theorem normalizeDF_of_strKeys (df : List Row)
    (h : ∀ r ∈ df, ∃ s, r.pmcid = .strKey s) : normalizeDF df = df := by
  induction df with
  | nil => rfl
  | cons r df ih =>
    have hr : ({ r with pmcid := KeyVal.strKey (normKey r.pmcid) } : Row) = r := by
      obtain ⟨s, hs⟩ := h r (by simp)
      cases r with
      | mk p m =>
        simp only at hs
        subst hs
        rfl
    have iht := ih (fun x hx => h x (by simp [hx]))
    simp only [normalizeDF, List.map_cons] at iht ⊢
    rw [hr, iht]

/-- C8 counterexample: the entry point mutates the caller's record set: an
input row keyed by the integer 7 has its key field replaced by the string
"7" during the call, so an input record's field is changed by the call. -/
theorem ppd_mutation_counterexample :
    (parallel_process_df callTriv ordersTriv [⟨.intKey 7, some "text"⟩] none 4 3
        (some storeEmpty) (some "tbl")).dfAfter
      = [⟨.strKey "7", some "text"⟩] ∧
    (parallel_process_df callTriv ordersTriv [⟨.intKey 7, some "text"⟩] none 4 3
        (some storeEmpty) (some "tbl")).dfAfter
      ≠ [⟨.intKey 7, some "text"⟩] := by
  constructor
  · rfl
  · intro h
    rw [ppd_dfAfter] at h
    exact absurd h (by decide)

/-- C8 amended: the entry point mutates exactly the key column of the
caller's records, before validating kwargs: afterwards every record's key
is the canonical string form of its original key, every other field is
unchanged, and a record set whose keys were already strings is left
unchanged. -/
theorem ppd_frame (call : Nat → List Row → Except String RDF)
    (orders : Nat → List Nat) (df : List Row) (nsp : Option Nat) (mw maxR : Nat)
    (spark : Option (Nat → List KeyVal)) (tn : Option String) :
    (parallel_process_df call orders df nsp mw maxR spark tn).dfAfter
      = normalizeDF df ∧
    (parallel_process_df call orders df nsp mw maxR spark tn).dfAfter.map Row.methods
      = df.map Row.methods ∧
    (∀ i, ((parallel_process_df call orders df nsp mw maxR spark tn).dfAfter.get? i).map
          Row.pmcid
        = (df.get? i).map (fun r => KeyVal.strKey (normKey r.pmcid))) ∧
    ((∀ r ∈ df, ∃ s, r.pmcid = .strKey s) →
      (parallel_process_df call orders df nsp mw maxR spark tn).dfAfter = df) := by
  have hda := ppd_dfAfter call orders df nsp mw maxR spark tn
  refine ⟨hda, ?_, ?_, ?_⟩
  · rw [hda]
    unfold normalizeDF
    rw [List.map_map]
    rfl
  · intro i
    rw [hda]
    unfold normalizeDF
    rw [List.get?_map]
    cases df.get? i <;> rfl
  · intro hstr
    rw [hda]
    exact normalizeDF_of_strKeys df hstr

theorem ppd_frame_witness :
    (parallel_process_df callTriv ordersTriv [⟨.strKey "a", some "m"⟩] none 4 3
        none none).dfAfter
      = [⟨.strKey "a", some "m"⟩] :=
  (ppd_frame callTriv ordersTriv [⟨.strKey "a", some "m"⟩] none 4 3
      none none).2.2.2
    (by
      intro r hr
      refine ⟨"a", ?_⟩
      simp only [List.mem_singleton] at hr
      subst hr
      rfl)

theorem dictSet_fresh (m : List (String × Option RDF)) (k : String) (v : Option RDF)
    (h : m.any (fun p => p.1 == k) = false) :
    dictSet m k v = m ++ [(k, v)] := by
  rw [dictSet, if_neg (by simp [h])]

theorem pp_dfs_fold_append (call : String → List Row → Except String RDF) :
    ∀ (l : List (String × List Row)) (m : List (String × Option RDF)),
      (l.map Prod.fst).Nodup →
      (∀ p ∈ m, ∀ q ∈ l, p.1 ≠ q.1) →
      l.foldl (fun acc kv => dictSet acc kv.1 (resOpt (call kv.1 kv.2))) m
        = m ++ l.map (fun kv => (kv.1, resOpt (call kv.1 kv.2))) := by
  intro l
  induction l with
  | nil => intro m _ _; simp
  | cons kv l ih =>
    intro m hnd hdisj
    rw [List.foldl_cons]
    have hany : m.any (fun p => p.1 == kv.1) = false := by
      apply List.any_eq_false.mpr
      intro p hp hbeq
      exact hdisj p hp kv (List.mem_cons_self kv l) (by simpa using hbeq)
    rw [dictSet_fresh m kv.1 _ hany]
    have hnd2 : (l.map Prod.fst).Nodup := by
      simp only [List.map_cons, List.nodup_cons] at hnd
      exact hnd.2
    have hhead : kv.1 ∉ l.map Prod.fst := by
      simp only [List.map_cons, List.nodup_cons] at hnd
      exact hnd.1
    have hdisj2 : ∀ p ∈ m ++ [(kv.1, resOpt (call kv.1 kv.2))], ∀ q ∈ l, p.1 ≠ q.1 := by
      intro p hp q hq
      rcases List.mem_append.mp hp with hp | hp
      · exact hdisj p hp q (List.mem_cons_of_mem kv hq)
      · simp only [List.mem_singleton] at hp
        subst hp
        intro hc
        exact hhead (by rw [hc]; exact List.mem_map_of_mem Prod.fst hq)
    rw [ih (m ++ [(kv.1, resOpt (call kv.1 kv.2))]) hnd2 hdisj2]
    simp

theorem parallel_process_dfs_direct (call : String → List Row → Except String RDF)
    (completed : List (String × List Row))
    (hnd : (completed.map Prod.fst).Nodup) :
    parallel_process_dfs call completed
      = completed.map (fun kv => (kv.1, resOpt (call kv.1 kv.2))) := by
  have h := pp_dfs_fold_append call completed [] hnd (by simp)
  simpa [parallel_process_dfs] using h

theorem keys_nodup_unique {β : Type} (l : List (String × β))
    (hnd : (l.map Prod.fst).Nodup) (k : String) (a b : β)
    (ha : (k, a) ∈ l) (hb : (k, b) ∈ l) : a = b := by
  induction l with
  | nil => simp at ha
  | cons p l ih =>
    simp only [List.map_cons, List.nodup_cons] at hnd
    rcases List.mem_cons.mp ha with ha1 | ha1 <;> rcases List.mem_cons.mp hb with hb1 | hb1
    · have : (k, a) = (k, b) := ha1.trans hb1.symm
      simpa using congrArg Prod.snd this
    · exfalso
      have hks : p.1 = k := by rw [← ha1]
      apply hnd.1
      rw [hks]
      exact List.mem_map_of_mem Prod.fst hb1
    · exfalso
      have hks : p.1 = k := by rw [← hb1]
      apply hnd.1
      rw [hks]
      exact List.mem_map_of_mem Prod.fst ha1
    · exact ih hnd.2 ha1 hb1

/-- C10: for every completion order of the futures, the multi-set entry
point returns a mapping with exactly the input's key set, each record set
dispatched independently; a key maps to None exactly when processing that
set raised, and no exception propagates to the caller. -/
theorem parallel_process_dfs_spec (call : String → List Row → Except String RDF)
    (inputs completed : List (String × List Row))
    (hperm : List.Perm completed inputs)
    (hnd : (inputs.map Prod.fst).Nodup) :
    List.Perm (parallel_process_dfs call completed)
      (inputs.map (fun kv => (kv.1, resOpt (call kv.1 kv.2)))) ∧
    List.Perm ((parallel_process_dfs call completed).map Prod.fst)
      (inputs.map Prod.fst) ∧
    (∀ k dfk, (k, dfk) ∈ inputs →
      ((k, (none : Option RDF)) ∈ parallel_process_dfs call completed
        ↔ ∃ e, call k dfk = .error e)) := by
  have hndc : (completed.map Prod.fst).Nodup := ((hperm.map Prod.fst).symm).nodup hnd
  have hdirect := parallel_process_dfs_direct call completed hndc
  have hperm1 : List.Perm (parallel_process_dfs call completed)
      (inputs.map (fun kv => (kv.1, resOpt (call kv.1 kv.2)))) := by
    rw [hdirect]
    exact hperm.map _
  refine ⟨hperm1, ?_, ?_⟩
  · have hmapped := hperm1.map Prod.fst
    have hcomp : (inputs.map (fun kv => (kv.1, resOpt (call kv.1 kv.2)))).map Prod.fst
        = inputs.map Prod.fst := by
      rw [List.map_map]
      rfl
    rw [hcomp] at hmapped
    exact hmapped
  · intro k dfk hk
    constructor
    · intro hmem
      have hmem2 : (k, (none : Option RDF))
          ∈ inputs.map (fun kv => (kv.1, resOpt (call kv.1 kv.2))) :=
        hperm1.mem_iff.mp hmem
      obtain ⟨kv, hkv, heq⟩ := List.mem_map.mp hmem2
      have hk1 : kv.1 = k := congrArg Prod.fst heq
      have hv : resOpt (call kv.1 kv.2) = none := congrArg Prod.snd heq
      have hkv2 : (k, kv.2) ∈ inputs := by
        cases kv with
        | mk a b =>
          simp only at hk1
          subst hk1
          exact hkv
      have hdfk : kv.2 = dfk := keys_nodup_unique inputs hnd k kv.2 dfk hkv2 hk
      rw [hk1, hdfk] at hv
      cases hc : call k dfk with
      | ok r => rw [hc] at hv; exact absurd hv (by simp [resOpt])
      | error e => exact ⟨e, rfl⟩
    · rintro ⟨e, he⟩
      apply hperm1.mem_iff.mpr
      apply List.mem_map.mpr
      exact ⟨(k, dfk), hk, by simp [resOpt, he]⟩

/-- First record set for the multi-set witness. -/
def dfsInA : List Row := [⟨.strKey "k1", some "m1"⟩]

/-- Second record set for the multi-set witness. -/
def dfsInB : List Row := [⟨.strKey "k2", none⟩]

/-- A collaborator that raises for the record set keyed "b" and succeeds
for every other key. -/
def callDfs : String → List Row → Except String RDF :=
  fun k _ => if k = "b" then .error "boom" else .ok [9]

theorem parallel_process_dfs_spec_witness :
    List.Perm (parallel_process_dfs callDfs [("b", dfsInB), ("a", dfsInA)])
      ([("a", dfsInA), ("b", dfsInB)].map
        (fun kv => (kv.1, resOpt (callDfs kv.1 kv.2)))) ∧
    List.Perm ((parallel_process_dfs callDfs [("b", dfsInB), ("a", dfsInA)]).map Prod.fst)
      ([("a", dfsInA), ("b", dfsInB)].map Prod.fst) ∧
    (∀ k dfk, (k, dfk) ∈ [("a", dfsInA), ("b", dfsInB)] →
      ((k, (none : Option RDF)) ∈ parallel_process_dfs callDfs [("b", dfsInB), ("a", dfsInA)]
        ↔ ∃ e, callDfs k dfk = .error e)) :=
  parallel_process_dfs_spec callDfs [("a", dfsInA), ("b", dfsInB)]
    [("b", dfsInB), ("a", dfsInA)] (by decide) (by decide)

end ParallelRunner
